import Mathlib

/-!
Verification development for the CPU-scheduling simulator in `src/main.go`.

The program is an offline, deterministic simulator of classical CPU-scheduling
disciplines.  The embedding below translates the scheduling functions
(`FCFSSchedule`, `SJFSchedule`, `RRSchedule`) into pure Lean functions:

* Go `int64` fields become `Int` (no arithmetic in the claims' regime comes
  near the 2^63 wrap, and all counterexamples are evaluated on tiny inputs);
* Go `float64` accumulators only ever hold exact sums of `int64` casts, so
  they are modelled as `ℚ`; a `float64` division is modelled by `fdiv`, which
  returns `none` exactly when the denominator is zero — the cases in which
  IEEE-754 division produces a non-finite value (`NaN` or `±Inf`) instead of
  a number;
* the Go rows `[][]string` print integer fields with `fmt.Sprint`, so a row is
  modelled as a record of the integers that are printed;
* the loops are modelled as explicit step functions iterated with fuel, with
  the loop's exit condition tested before every step.
-/

/-- One process record, translated from the `Process` struct (src/main.go:59-64). -/
structure Process where
  ProcessID : Int
  ArrivalTime : Int
  BurstDuration : Int
  Priority : Int
deriving DecidableEq

/-- One Gantt-trace interval, translated from the `TimeSlice` struct (src/main.go:65-69). -/
structure TimeSlice where
  PID : Int
  Start : Int
  Stop : Int
deriving DecidableEq

/-- One schedule-table row.  The Go code builds a `[]string` of seven integers
printed with `fmt.Sprint` (src/main.go:102-110, 215-223); we model the row as
the record of those seven integers, in column order ID, Priority, Burst,
Arrival, Wait, Turnaround, Exit. -/
structure ScheduleRow where
  id : Int
  priority : Int
  burst : Int
  arrival : Int
  wait : Int
  turnaround : Int
  completion : Int
deriving DecidableEq

/-- Model of a `float64` division.  The dividends and divisors occurring in the
program are exact integer values, so the quotient is an exact rational whenever
the divisor is nonzero; a zero divisor makes IEEE-754 division produce a
non-finite value (`NaN` for `0/0`, `±Inf` otherwise), modelled as `none`. -/
def fdiv (a b : ℚ) : Option ℚ :=
  if b = 0 then none else some (a / b)

/-- The result a scheduler hands to the reporting helpers: the schedule rows,
the Gantt trace, and the three aggregate metrics (average wait, average
turnaround, throughput), in the order of `outputSchedule`'s arguments. -/
structure SchedResult where
  rows : List ScheduleRow
  gantt : List TimeSlice
  aveWait : Option ℚ
  aveTurnaround : Option ℚ
  throughput : Option ℚ
deriving DecidableEq

/-! ## FCFSSchedule (src/main.go:78-128)

The loop body (lines 88-118) is `FCFSstep`; the loop is a left fold over the
input slice.  Two peculiarities of the source are embedded as written:

* `waitingTime` is declared outside the loop (line 84) and is only assigned
  when `processes[i].ArrivalTime > 0` (lines 89-91), so for a process with
  arrival time 0 it keeps the value left over from the previous iteration;
* line 96 declares a loop-local `turnaround` shadowing the `float64`
  accumulator of line 82, and line 97 (`turnaround += float64(turnaround)`)
  adds the variable to itself.  (As written that statement is even ill-typed
  Go — an `int64` incremented by a `float64` — one of several reasons the file
  does not compile; reading the conversion as exact, which it is on these
  integer values, the statement doubles the loop-local `turnaround`.)  The
  outer accumulator of line 82 is consequently never written and stays 0.
-/

/-- Loop state of `FCFSSchedule`: the variables of src/main.go:79-87. -/
structure FCFSState where
  serviceTime : Int
  totalWait : ℚ
  lastCompletion : ℚ
  waitingTime : Int
  schedule : List ScheduleRow
  gantt : List TimeSlice
deriving DecidableEq

/-- One iteration of the `for i := range processes` loop (src/main.go:88-118). -/
def FCFSstep (st : FCFSState) (p : Process) : FCFSState :=
  let waitingTime := if p.ArrivalTime > 0 then st.serviceTime - p.ArrivalTime else st.waitingTime
  let totalWait := st.totalWait + (waitingTime : ℚ)
  let start := waitingTime + p.ArrivalTime
  let turnaround := p.BurstDuration + waitingTime
  let turnaround := turnaround + turnaround
  let completion := p.BurstDuration + p.ArrivalTime + waitingTime
  let lastCompletion := (completion : ℚ)
  let row : ScheduleRow :=
    ⟨p.ProcessID, p.Priority, p.BurstDuration, p.ArrivalTime, waitingTime, turnaround, completion⟩
  let serviceTime := st.serviceTime + p.BurstDuration
  let slice : TimeSlice := ⟨p.ProcessID, start, serviceTime⟩
  ⟨serviceTime, totalWait, lastCompletion, waitingTime,
    st.schedule ++ [row], st.gantt ++ [slice]⟩

/-- The state after the whole loop of `FCFSSchedule` has run. -/
def FCFSfold (processes : List Process) : FCFSState :=
  processes.foldl FCFSstep ⟨0, 0, 0, 0, [], []⟩

/-- `FCFSSchedule` (src/main.go:78-128).  The final metrics translate lines
120-123; `aveTurnaround` divides the *outer* `turnaround` accumulator of line
82, which is never assigned (the loop-local variable of line 96 shadows it),
hence the numerator 0. -/
def FCFSSchedule (processes : List Process) : SchedResult :=
  let st := FCFSfold processes
  let count : ℚ := processes.length
  { rows := st.schedule
    gantt := st.gantt
    aveWait := fdiv st.totalWait count
    aveTurnaround := fdiv 0 count
    throughput := fdiv count st.lastCompletion }

/-! ### Closed form of the FCFS loop

`fcfsWait`, `fcfsRow` and `fcfsSlice` give a direct (index-recursive) closed
form for what the loop of `FCFSSchedule` computes; `FCFSfold_eq` proves the
left fold equal to it.  These definitions state the *actual* behaviour of the
source: the waiting time of a process whose arrival time is 0 is carried over
unchanged from the previous iteration, and the logical clock is never advanced
to a late arrival. -/

/-- The zero value of the `Process` struct. -/
def defaultProcess : Process := ⟨0, 0, 0, 0⟩

/-- `processes[i]` (with the Go zero value out of range, which never matters
below since every use is guarded by `i < ps.length`). -/
def pAt (ps : List Process) (i : ℕ) : Process := ps.getD i defaultProcess

/-- Sum of the burst durations of the first `i` processes: the value of the
clock `serviceTime` when the loop reaches index `i`. -/
def burstPrefix (ps : List Process) (i : ℕ) : Int :=
  ((ps.take i).map Process.BurstDuration).sum

/-- The value of `waitingTime` after iteration `i` of the FCFS loop:
recomputed as clock minus arrival when the arrival time is positive, and
carried over from the previous iteration otherwise (initially 0). -/
def fcfsWait (ps : List Process) : ℕ → Int
  | 0 => if (pAt ps 0).ArrivalTime > 0 then 0 - (pAt ps 0).ArrivalTime else 0
  | i + 1 =>
    if (pAt ps (i + 1)).ArrivalTime > 0 then
      burstPrefix ps (i + 1) - (pAt ps (i + 1)).ArrivalTime
    else fcfsWait ps i

/-- The schedule row emitted for `processes[i]` by `FCFSSchedule`.  The
turnaround column holds `(burst + wait) + (burst + wait)`, i.e. twice the
value `completion - arrival` would give, because of the self-addition at
src/main.go:97. -/
def fcfsRow (ps : List Process) (i : ℕ) : ScheduleRow :=
  ⟨(pAt ps i).ProcessID, (pAt ps i).Priority, (pAt ps i).BurstDuration,
    (pAt ps i).ArrivalTime, fcfsWait ps i,
    (pAt ps i).BurstDuration + fcfsWait ps i + ((pAt ps i).BurstDuration + fcfsWait ps i),
    (pAt ps i).BurstDuration + (pAt ps i).ArrivalTime + fcfsWait ps i⟩

/-- The time slice emitted for `processes[i]` by `FCFSSchedule`. -/
def fcfsSlice (ps : List Process) (i : ℕ) : TimeSlice :=
  ⟨(pAt ps i).ProcessID, fcfsWait ps i + (pAt ps i).ArrivalTime, burstPrefix ps (i + 1)⟩

/-! ## SJFSchedule (src/main.go:182-244)

`src/main.go` contains *two* functions named `SJFSchedule` (lines 130-180 and
182-244) — a duplicate definition, another reason the Go file does not
compile.  We embed the second one, the non-preemptive variant whose lines the
other claims reference.  Its loop (lines 195-233) first moves every process
with `ArrivalTime <= currentTime && BurstDuration > 0` from the `processes`
slice into the heap (lines 196-203), then either pops one process and runs it
to completion (lines 205-229) or, if the heap is empty, advances the clock by
one unit (lines 230-232); the loop exits when both the heap and the slice are
empty (line 195). -/

/-- Modelled from the spec: the `PriorityHeap` used by `SJFSchedule` (line
192) is not defined anywhere in src/main.go — only `heap.Init`, `heap.Push`
and `heap.Pop` calls on it appear — so its ordering is taken from spec §4.2:
"select the one with the smallest original burst duration; ties broken by
earliest arrival, then lowest processID". -/
def sjfLess (p q : Process) : Prop :=
  p.BurstDuration < q.BurstDuration ∨
    (p.BurstDuration = q.BurstDuration ∧
      (p.ArrivalTime < q.ArrivalTime ∨
        (p.ArrivalTime = q.ArrivalTime ∧ p.ProcessID < q.ProcessID)))

instance (p q : Process) : Decidable (sjfLess p q) := by
  unfold sjfLess
  infer_instance

/-- Modelled from the spec: extraction of the minimum element from the heap,
under the `sjfLess` order.  The heap is modelled as the list of elements it
contains; `popMin` returns the least element and the rest. -/
def popMin : List Process → Option (Process × List Process)
  | [] => none
  | p :: ps =>
    match popMin ps with
    | none => some (p, [])
    | some (q, rest) => if sjfLess q p then some (q, p :: rest) else some (p, ps)

/-- The push condition of src/main.go:197. -/
def sjfReadyCond (t : Int) (p : Process) : Bool :=
  decide (p.ArrivalTime ≤ t) && decide (0 < p.BurstDuration)

/-- The processes moved from the slice into the heap during the scan of
src/main.go:196-203 at clock value `t` (the in-place removal keeps the
relative order of the remaining elements, so the scan is a partition of the
slice by `sjfReadyCond t`). -/
def sjfArrivals (t : Int) (ps : List Process) : List Process :=
  ps.filter (sjfReadyCond t)

/-- The processes still in the slice after the scan of src/main.go:196-203. -/
def sjfRemaining (t : Int) (ps : List Process) : List Process :=
  ps.filter fun p => !sjfReadyCond t p

/-- Loop state of `SJFSchedule` (second definition).  `served` is a ghost
field recording the processes in the order they are popped and run; it is not
a variable of the source (which records the same order through the appended
schedule rows and time slices) and is used only to state in which order
processes are serviced. -/
structure SJFState where
  heap : List Process
  procs : List Process
  served : List Process
  currentTime : Int
  totalWait : ℚ
  totalTurnaround : ℚ
  schedule : List ScheduleRow
  gantt : List TimeSlice
deriving DecidableEq

/-- The heap contents at the decision point of an iteration: the old heap
plus the processes just moved in by the scan of src/main.go:196-203. -/
def sjfReady (st : SJFState) : List Process :=
  st.heap ++ sjfArrivals st.currentTime st.procs

/-- One iteration of the `for len(*h) > 0 || len(processes) > 0` loop
(src/main.go:195-233).  Note the burst column of the emitted row is
`p.BurstDuration + waitTime` (line 218) — the source comments it
"original burst time", but this variant never decrements `BurstDuration`,
so the column holds burst *plus wait*, not the original burst. -/
def SJFstep (st : SJFState) : SJFState :=
  match popMin (sjfReady st) with
  | some (p, rest) =>
    let startTime := st.currentTime
    let currentTime := st.currentTime + p.BurstDuration
    let waitTime := startTime - p.ArrivalTime
    let turnaroundTime := currentTime - p.ArrivalTime
    { heap := rest
      procs := sjfRemaining st.currentTime st.procs
      served := st.served ++ [p]
      currentTime := currentTime
      totalWait := st.totalWait + (waitTime : ℚ)
      totalTurnaround := st.totalTurnaround + (turnaroundTime : ℚ)
      schedule := st.schedule ++ [⟨p.ProcessID, p.Priority, p.BurstDuration + waitTime,
        p.ArrivalTime, waitTime, turnaroundTime, currentTime⟩]
      gantt := st.gantt ++ [⟨p.ProcessID, startTime, currentTime⟩] }
  | none =>
    { st with
      heap := sjfReady st
      procs := sjfRemaining st.currentTime st.procs
      currentTime := st.currentTime + 1 }

/-- The exit condition of the loop at src/main.go:195. -/
def SJFdone (st : SJFState) : Bool := st.heap.isEmpty && st.procs.isEmpty

/-- The loop, iterated with fuel.  For every valid input the loop exits within
`SJFfuel` iterations; a process with a non-positive burst is never pushed and
makes the Go loop (and hence the model, which then stops on fuel) spin
forever. -/
def SJFrun : ℕ → SJFState → SJFState
  | 0, st => st
  | n + 1, st => if SJFdone st then st else SJFrun n (SJFstep st)

/-- The state at the head of `SJFSchedule`'s loop. -/
def SJFinit (ps : List Process) : SJFState := ⟨[], ps, [], 0, 0, 0, [], []⟩

/-- Enough fuel for every valid process set: one iteration per pop plus one
idle iteration per clock unit up to the largest arrival time. -/
def SJFfuel (ps : List Process) : ℕ :=
  ps.length + ((ps.map Process.ArrivalTime).foldr max 0).toNat + 1

/-- `SJFSchedule` (second definition, src/main.go:182-244): run the loop, then
compute the averages of lines 236-238. -/
def SJFSchedule (ps : List Process) : SchedResult :=
  let st := SJFrun (SJFfuel ps) (SJFinit ps)
  { rows := st.schedule
    gantt := st.gantt
    aveWait := fdiv st.totalWait st.schedule.length
    aveTurnaround := fdiv st.totalTurnaround st.schedule.length
    throughput := fdiv st.schedule.length st.currentTime }

/-! ## RRSchedule (src/main.go:246-295)

`RRSchedule` hardcodes `timeQuantum := 2` in its first statement (line 247);
the quantum is not a parameter and no validation of it exists.  The loop
(lines 257-284) moves arrived processes from the `processes` slice to the FIFO
queue, then either services the queue head for one quantum (re-appending it)
or to completion, or advances the clock by one unit when the queue is empty.
The function emits no schedule rows and no time slices: it only prints the
three averages (lines 286-294).  Those divide by `len(processes)` — the
by-then emptied slice — and by `currentTime`. -/

/-- The enqueue condition of src/main.go:259. -/
def rrArrivedCond (t : Int) (p : Process) : Bool := decide (p.ArrivalTime ≤ t)

/-- Loop state of `RRSchedule`: the queue, the (shrinking) processes slice,
the clock, and the two `int64` accumulators. -/
structure RRState where
  queue : List Process
  procs : List Process
  currentTime : Int
  totalWait : Int
  turnaround : Int
deriving DecidableEq

/-- One iteration of the `for len(queue) > 0 || len(processes) > 0` loop
(src/main.go:257-284), parameterised by the time quantum. -/
def RRstep (tq : Int) (st : RRState) : RRState :=
  match st.queue ++ st.procs.filter (rrArrivedCond st.currentTime) with
  | [] =>
    { st with
      queue := []
      procs := st.procs.filter fun p => !rrArrivedCond st.currentTime p
      currentTime := st.currentTime + 1 }
  | p :: rest =>
    if tq < p.BurstDuration then
      { queue := rest ++ [{ p with BurstDuration := p.BurstDuration - tq }]
        procs := st.procs.filter fun p => !rrArrivedCond st.currentTime p
        currentTime := st.currentTime + tq
        totalWait := st.totalWait
        turnaround := st.turnaround }
    else
      { queue := rest
        procs := st.procs.filter fun p => !rrArrivedCond st.currentTime p
        currentTime := st.currentTime + p.BurstDuration
        totalWait := st.totalWait
          + (st.currentTime + p.BurstDuration - p.ArrivalTime - p.BurstDuration)
        turnaround := st.turnaround + (st.currentTime + p.BurstDuration - p.ArrivalTime) }

/-- The exit condition of the loop at src/main.go:257. -/
def RRdone (st : RRState) : Bool := st.queue.isEmpty && st.procs.isEmpty

/-- The Round-Robin loop, iterated with fuel. -/
def RRrun (tq : Int) : ℕ → RRState → RRState
  | 0, st => st
  | n + 1, st => if RRdone st then st else RRrun tq n (RRstep tq st)

/-- The state at the head of `RRSchedule`'s loop. -/
def RRinit (ps : List Process) : RRState := ⟨[], ps, 0, 0, 0⟩

/-- The hardcoded quantum of src/main.go:247: a constant, not a parameter. -/
def RRtimeQuantum : Int := 2

/-- Enough fuel for every valid process set under the hardcoded quantum. -/
def RRfuel (ps : List Process) : ℕ :=
  ((ps.map Process.ArrivalTime).foldr max 0).toNat
    + ((ps.map Process.BurstDuration).sum).toNat + ps.length + 1

/-- The three values `RRSchedule` prints (lines 286-294). -/
structure RRMetrics where
  avgTurnaround : Option ℚ
  avgWait : Option ℚ
  throughput : Option ℚ
deriving DecidableEq

/-- The body of `RRSchedule` with the quantum made explicit: run the loop,
then compute lines 287-289, in which `len(processes)` is the length of the
final (emptied) slice. -/
def RRScheduleWith (tq : Int) (ps : List Process) : RRMetrics :=
  let st := RRrun tq (RRfuel ps) (RRinit ps)
  { avgTurnaround := fdiv (st.turnaround : ℚ) (st.procs.length : ℚ)
    avgWait := fdiv (st.totalWait : ℚ) (st.procs.length : ℚ)
    throughput := fdiv (st.procs.length : ℚ) (st.currentTime : ℚ) }

/-- `RRSchedule` (src/main.go:246-295): the body run with the hardcoded
quantum 2. -/
def RRSchedule (ps : List Process) : RRMetrics := RRScheduleWith RRtimeQuantum ps

/-! ### Reachability invariant of the SJF loop -/

/-- The input invariant of every valid process set (spec §3). -/
def validProcs (ps : List Process) : Prop :=
  ∀ p ∈ ps, 0 ≤ p.ArrivalTime ∧ 0 < p.BurstDuration

instance (ps : List Process) : Decidable (validProcs ps) := by
  unfold validProcs
  infer_instance

/-- Invariant of the SJF loop: the served list, the heap and the remaining
slice partition the input set, and every heap element has arrived. -/
structure SJFInv (ps : List Process) (st : SJFState) : Prop where
  perm : (st.served ++ st.heap ++ st.procs).Perm ps
  heapArrived : ∀ x ∈ st.heap, x.ArrivalTime ≤ st.currentTime

/-- The set claim C2 calls "processes that have arrived and not yet run":
the input processes whose arrival time has been reached and that have not
been serviced yet. -/
def sjfReadySet (ps : List Process) (st : SJFState) : List Process :=
  ps.filter fun x => decide (x.ArrivalTime ≤ st.currentTime) && !(decide (x ∈ st.served))

/-- The property claim C2 asserts, at the decision point reached after `k`
iterations of `SJFSchedule`'s loop, for any continuation of `n` further
iterations: (a) the process popped from the heap is one of the ready
processes, is least under the (spec-modelled) order `sjfLess` — smallest
original burst, ties by earliest arrival then lowest processID — and runs to
completion without interruption (the iteration emits the single time slice
`[t, t + burst)` and advances the clock to `t + burst`); (b) the heap at the
decision point holds exactly the arrived-and-not-yet-serviced processes; and
(c) of two ready processes, one with strictly smaller original burst is never
serviced after the other. -/
def SJFSelectionProp (ps : List Process) (k n : ℕ) : Prop :=
  (∀ p rest, popMin (sjfReady (SJFrun k (SJFinit ps))) = some (p, rest) →
      p ∈ sjfReady (SJFrun k (SJFinit ps)) ∧
      (∀ q ∈ sjfReady (SJFrun k (SJFinit ps)), ¬ sjfLess q p) ∧
      (SJFstep (SJFrun k (SJFinit ps))).currentTime
        = (SJFrun k (SJFinit ps)).currentTime + p.BurstDuration ∧
      (SJFstep (SJFrun k (SJFinit ps))).gantt
        = (SJFrun k (SJFinit ps)).gantt
          ++ [⟨p.ProcessID, (SJFrun k (SJFinit ps)).currentTime,
               (SJFrun k (SJFinit ps)).currentTime + p.BurstDuration⟩]) ∧
  (sjfReady (SJFrun k (SJFinit ps))).Perm (sjfReadySet ps (SJFrun k (SJFinit ps))) ∧
  (∀ p q : Process, p ∈ sjfReady (SJFrun k (SJFinit ps)) →
      q ∈ sjfReady (SJFrun k (SJFinit ps)) → p.BurstDuration < q.BurstDuration →
      ∀ i j, (SJFrun n (SJFrun k (SJFinit ps))).served.get? i = some p →
        (SJFrun n (SJFrun k (SJFinit ps))).served.get? j = some q → i < j)

/-- Positivity invariant of the RR loop: every remaining burst, in the queue
and in the slice, is positive. -/
def RRPosInv (st : RRState) : Prop :=
  (∀ x ∈ st.queue, 0 < x.BurstDuration) ∧ (∀ x ∈ st.procs, 0 < x.BurstDuration)

/-! ### The caller's view of the processes slice (Go slice aliasing)

`SJFSchedule` and `RRSchedule` remove elements from their `processes`
parameter with `processes = append(processes[:i], processes[i+1:]...)`
(src/main.go:199, 262).  A Go slice is a (pointer, length, capacity) header
passed by value: the removal shrinks the callee's local length, but the
element copies it performs happen inside the *caller's* backing array.  The
model below re-runs `SJFSchedule`'s loop while tracking that backing array
and the callee's length; the caller still sees the original length, so its
view of the slice after the call is the first `ps.length` entries of the
final backing array. -/

/-- Effect of `append(processes[:i], processes[i+1:]...)` on the backing
array when the callee's slice has length `len`: entries `i+1 .. len-1` are
copied one slot left; entries from `len-1` on are untouched. -/
def goRemoveAt (backing : List Process) (len i : ℕ) : List Process :=
  backing.take i ++ ((backing.take len).drop (i + 1)) ++ backing.drop (len - 1)

/-- The scan of src/main.go:196-203 over the slice `(backing, len)` at clock
`t`: returns the processes pushed on the heap, the new backing array and the
new length.  The fuel argument (called with `len`) bounds the scan, which
performs at most `len` iterations. -/
def goScanAux (t : Int) : ℕ → List Process → ℕ → ℕ → (List Process × List Process × ℕ)
  | 0, backing, len, _ => ([], backing, len)
  | fuel + 1, backing, len, i =>
    if i < len then
      if (backing.getD i defaultProcess).ArrivalTime ≤ t
          ∧ 0 < (backing.getD i defaultProcess).BurstDuration then
        let r := goScanAux t fuel (goRemoveAt backing len i) (len - 1) i
        ((backing.getD i defaultProcess) :: r.1, r.2.1, r.2.2)
      else
        goScanAux t fuel backing len (i + 1)
    else ([], backing, len)

/-- The loop state of `SJFSchedule` with the memory of the processes slice
made explicit (the metrics and output fields are omitted: they do not feed
back into the loop). -/
structure SJFMemState where
  heap : List Process
  backing : List Process
  len : ℕ
  currentTime : Int
deriving DecidableEq

/-- One iteration of `SJFSchedule`'s loop over the explicit-memory state. -/
def SJFmemStep (st : SJFMemState) : SJFMemState :=
  match goScanAux st.currentTime st.len st.backing st.len 0 with
  | (pushed, backing, len) =>
    match popMin (st.heap ++ pushed) with
    | some (p, rest) => ⟨rest, backing, len, st.currentTime + p.BurstDuration⟩
    | none => ⟨st.heap ++ pushed, backing, len, st.currentTime + 1⟩

/-- The exit condition of src/main.go:195 over the explicit-memory state. -/
def SJFmemDone (st : SJFMemState) : Bool := st.heap.isEmpty && (st.len == 0)

/-- `SJFSchedule`'s loop over the explicit-memory state, iterated with fuel. -/
def SJFmemRun : ℕ → SJFMemState → SJFMemState
  | 0, st => st
  | n + 1, st => if SJFmemDone st then st else SJFmemRun n (SJFmemStep st)

/-- What the caller's `processes` slice reads after `SJFSchedule(w, title, ps)`
returns: the first `ps.length` entries of the mutated backing array. -/
def SJFcallerView (ps : List Process) : List Process :=
  (SJFmemRun (SJFfuel ps) ⟨[], ps, ps.length, 0⟩).backing.take ps.length

/-- Total duration of the time slices recorded for one process id. -/
def pidSliceSum (gantt : List TimeSlice) (pid : Int) : Int :=
  ((gantt.filter fun s => s.PID == pid).map fun s => s.Stop - s.Start).sum

/-! ### Termination measure of the Round-Robin loop -/

/-- Total remaining burst of a list of processes. -/
def sumBurst (l : List Process) : Int := (l.map Process.BurstDuration).sum

/-- Largest arrival time in a list of processes (0 when empty; arrivals of a
valid set are nonnegative). -/
def maxArrival (l : List Process) : Int := (l.map Process.ArrivalTime).foldr max 0

/-- Measure that strictly decreases at every iteration of the Round-Robin
loop on a positive-burst state: the total remaining burst plus the distance
from the clock to the last arrival still in the slice. -/
def RRmeasure (st : RRState) : ℕ :=
  (sumBurst st.queue + sumBurst st.procs).toNat
    + (maxArrival st.procs - st.currentTime).toNat


/-! ## Theorems -/

theorem pAt_append (ps : List Process) (p : Process) (i : ℕ) (h : i < ps.length) :
    pAt (ps ++ [p]) i = pAt ps i := by
  unfold pAt
  exact List.getD_append ps [p] defaultProcess i h

theorem pAt_append_last (ps : List Process) (p : Process) :
    pAt (ps ++ [p]) ps.length = p := by
  unfold pAt
  rw [List.getD_append_right ps [p] defaultProcess ps.length le_rfl]
  simp

theorem burstPrefix_append (ps : List Process) (p : Process) (i : ℕ) (h : i ≤ ps.length) :
    burstPrefix (ps ++ [p]) i = burstPrefix ps i := by
  unfold burstPrefix
  rw [List.take_append_eq_append_take, Nat.sub_eq_zero_of_le h]
  simp

theorem burstPrefix_append_last (ps : List Process) (p : Process) :
    burstPrefix (ps ++ [p]) (ps.length + 1) = burstPrefix ps ps.length + p.BurstDuration := by
  unfold burstPrefix
  rw [List.take_append_eq_append_take]
  simp [List.take_of_length_le]

theorem fcfsWait_append (ps : List Process) (p : Process) (i : ℕ) (h : i < ps.length) :
    fcfsWait (ps ++ [p]) i = fcfsWait ps i := by
  induction i with
  | zero =>
    unfold fcfsWait
    rw [pAt_append ps p 0 (by omega)]
  | succ i ih =>
    unfold fcfsWait
    rw [pAt_append ps p (i + 1) h, burstPrefix_append ps p (i + 1) (by omega),
      ih (by omega)]

theorem fcfsWait_zero (ps : List Process) :
    fcfsWait ps 0 = if (pAt ps 0).ArrivalTime > 0 then 0 - (pAt ps 0).ArrivalTime else 0 := rfl

theorem fcfsWait_succ (ps : List Process) (i : ℕ) :
    fcfsWait ps (i + 1) =
      if (pAt ps (i + 1)).ArrivalTime > 0 then
        burstPrefix ps (i + 1) - (pAt ps (i + 1)).ArrivalTime
      else fcfsWait ps i := rfl

theorem fcfsWait_append_last (ps : List Process) (p : Process) :
    fcfsWait (ps ++ [p]) ps.length =
      if p.ArrivalTime > 0 then burstPrefix ps ps.length - p.ArrivalTime
      else fcfsWait ps (ps.length - 1) := by
  cases hps : ps with
  | nil =>
    simp only [List.nil_append, List.length_nil, fcfsWait_zero]
    simp [pAt, burstPrefix, defaultProcess, fcfsWait_zero]
  | cons q qs =>
    rw [← hps]
    have hlen : ps.length = qs.length + 1 := by rw [hps]; simp
    have hpa : pAt (ps ++ [p]) (qs.length + 1) = p := by
      rw [← hlen]; exact pAt_append_last ps p
    rw [hlen, Nat.add_sub_cancel, fcfsWait_succ, hpa,
      burstPrefix_append ps p (qs.length + 1) (by omega),
      fcfsWait_append ps p qs.length (by omega)]

theorem fcfsRow_append (ps : List Process) (p : Process) (i : ℕ) (h : i < ps.length) :
    fcfsRow (ps ++ [p]) i = fcfsRow ps i := by
  unfold fcfsRow
  rw [pAt_append ps p i h, fcfsWait_append ps p i h]

theorem fcfsSlice_append (ps : List Process) (p : Process) (i : ℕ) (h : i < ps.length) :
    fcfsSlice (ps ++ [p]) i = fcfsSlice ps i := by
  unfold fcfsSlice
  rw [pAt_append ps p i h, fcfsWait_append ps p i h,
    burstPrefix_append ps p (i + 1) (by omega)]

/-- Full closed-form characterisation of the FCFS loop: the final values of
every loop variable of `FCFSSchedule` expressed directly in terms of the input
list. -/
theorem FCFSfold_eq (ps : List Process) :
    FCFSfold ps =
      ⟨burstPrefix ps ps.length,
       ((List.range ps.length).map fun i => ((fcfsWait ps i : Int) : ℚ)).sum,
       if ps.length = 0 then 0 else
         (((pAt ps (ps.length - 1)).BurstDuration + (pAt ps (ps.length - 1)).ArrivalTime
            + fcfsWait ps (ps.length - 1) : Int) : ℚ),
       fcfsWait ps (ps.length - 1),
       (List.range ps.length).map (fcfsRow ps),
       (List.range ps.length).map (fcfsSlice ps)⟩ := by
  induction ps using List.reverseRecOn with
  | nil => rfl
  | append_singleton ps p ih =>
    have hfold : FCFSfold (ps ++ [p]) = FCFSstep (FCFSfold ps) p := by
      unfold FCFSfold
      rw [List.foldl_append]
      rfl
    have hw := fcfsWait_append_last ps p
    have hlen : (ps ++ [p]).length = ps.length + 1 := by simp
    have hsub : ps.length + 1 - 1 = ps.length := by omega
    rw [hfold, ih]
    simp only [FCFSstep, hlen, hsub]
    have hrows : (List.range ps.length).map (fcfsRow (ps ++ [p]))
        = (List.range ps.length).map (fcfsRow ps) :=
      List.map_congr_left fun a ha => fcfsRow_append ps p a (List.mem_range.mp ha)
    have hslices : (List.range ps.length).map (fcfsSlice (ps ++ [p]))
        = (List.range ps.length).map (fcfsSlice ps) :=
      List.map_congr_left fun a ha => fcfsSlice_append ps p a (List.mem_range.mp ha)
    have hwaits : (List.range ps.length).map (fun i => ((fcfsWait (ps ++ [p]) i : Int) : ℚ))
        = (List.range ps.length).map (fun i => ((fcfsWait ps i : Int) : ℚ)) :=
      List.map_congr_left fun a ha => by
        rw [fcfsWait_append ps p a (List.mem_range.mp ha)]
    simp only [FCFSState.mk.injEq]
    refine ⟨?_, ?_, ?_, ?_, ?_, ?_⟩
    · rw [burstPrefix_append_last ps p]
    · rw [List.range_succ, List.map_append, hwaits]
      simp only [List.map_cons, List.map_nil, List.sum_append, List.sum_cons,
        List.sum_nil, add_zero]
      rw [hw]
    · rw [if_neg (Nat.succ_ne_zero ps.length), pAt_append_last ps p, hw]
    · rw [hw]
    · rw [List.range_succ, List.map_append, hrows]
      congr 1
      simp only [List.map_cons, List.map_nil]
      unfold fcfsRow
      rw [pAt_append_last ps p, hw]
    · rw [List.range_succ, List.map_append, hslices]
      congr 1
      simp only [List.map_cons, List.map_nil]
      unfold fcfsSlice
      rw [pAt_append_last ps p, hw, burstPrefix_append_last ps p]

example :
    SJFSchedule [⟨1, 0, 5, 0⟩, ⟨2, 1, 3, 0⟩, ⟨3, 2, 1, 0⟩] =
      { rows := [⟨1, 0, 5, 0, 0, 5, 5⟩, ⟨3, 0, 4, 2, 3, 4, 6⟩, ⟨2, 0, 8, 1, 5, 8, 9⟩]
        gantt := [⟨1, 0, 5⟩, ⟨3, 5, 6⟩, ⟨2, 6, 9⟩]
        aveWait := some (8/3)
        aveTurnaround := some (17/3)
        throughput := some (1/3) } := by
  simp [SJFSchedule, SJFfuel, SJFrun, SJFinit, SJFstep, SJFdone, sjfArrivals, sjfRemaining,
    sjfReadyCond, popMin, sjfLess, fdiv]
  norm_num

/-! ### Properties of the modelled heap order -/

theorem sjfLess_irrefl (p : Process) : ¬ sjfLess p p := by
  unfold sjfLess
  omega

theorem sjfLess_asymm {p q : Process} (h : sjfLess p q) : ¬ sjfLess q p := by
  unfold sjfLess at *
  omega

theorem sjfLess_neg_trans {a q x : Process} (h1 : ¬ sjfLess q a) (h2 : ¬ sjfLess x q) :
    ¬ sjfLess x a := by
  unfold sjfLess at *
  omega

theorem sjfLess_ne {p q : Process} (h : sjfLess p q) : p ≠ q := by
  rintro rfl
  exact sjfLess_irrefl p h

theorem popMin_ne_none (p : Process) (ps : List Process) : popMin (p :: ps) ≠ none := by
  unfold popMin
  cases h : popMin ps with
  | none => simp
  | some x =>
    obtain ⟨q, rest⟩ := x
    by_cases hc : sjfLess q p <;> simp [hc]

theorem popMin_eq_none {l : List Process} (h : popMin l = none) : l = [] := by
  cases l with
  | nil => rfl
  | cons a as => exact absurd h (popMin_ne_none a as)

theorem popMin_of_ne_nil {l : List Process} (h : l ≠ []) :
    ∃ p rest, popMin l = some (p, rest) := by
  cases hm : popMin l with
  | none => exact absurd (popMin_eq_none hm) h
  | some x =>
    obtain ⟨p, rest⟩ := x
    exact ⟨p, rest, rfl⟩

theorem popMin_cons_none {a : Process} {as : List Process} (hm : popMin as = none) :
    popMin (a :: as) = some (a, []) := by
  unfold popMin
  simp [hm]

theorem popMin_cons_less {a q : Process} {as r : List Process}
    (hm : popMin as = some (q, r)) (hc : sjfLess q a) :
    popMin (a :: as) = some (q, a :: r) := by
  unfold popMin
  simp [hm, hc]

theorem popMin_cons_notless {a q : Process} {as r : List Process}
    (hm : popMin as = some (q, r)) (hc : ¬ sjfLess q a) :
    popMin (a :: as) = some (a, as) := by
  unfold popMin
  simp [hm, hc]

/-- `popMin` returns a permutation decomposition of the heap. -/
theorem popMin_perm {l : List Process} {p : Process} {rest : List Process}
    (h : popMin l = some (p, rest)) : l.Perm (p :: rest) := by
  induction l generalizing p rest with
  | nil => simp [popMin] at h
  | cons a as ih =>
    cases hm : popMin as with
    | none =>
      rw [popMin_cons_none hm] at h
      injection h with h1
      injection h1 with h2 h3
      subst h2
      subst h3
      rw [popMin_eq_none hm]
    | some x =>
      obtain ⟨q, r⟩ := x
      by_cases hc : sjfLess q a
      · rw [popMin_cons_less hm hc] at h
        injection h with h1
        injection h1 with h2 h3
        subst h2
        subst h3
        exact ((ih hm).cons a).trans (List.Perm.swap _ _ _)
      · rw [popMin_cons_notless hm hc] at h
        injection h with h1
        injection h1 with h2 h3
        subst h2
        subst h3
        exact List.Perm.refl _

/-- `popMin` returns a least element of the heap under `sjfLess`. -/
theorem popMin_min {l : List Process} {p : Process} {rest : List Process}
    (h : popMin l = some (p, rest)) : ∀ q ∈ l, ¬ sjfLess q p := by
  induction l generalizing p rest with
  | nil => simp [popMin] at h
  | cons a as ih =>
    cases hm : popMin as with
    | none =>
      rw [popMin_cons_none hm] at h
      injection h with h1
      injection h1 with h2 h3
      subst h2
      have has : as = [] := popMin_eq_none hm
      subst has
      intro q hq
      simp only [List.mem_singleton] at hq
      subst hq
      exact sjfLess_irrefl q
    | some x =>
      obtain ⟨m, r⟩ := x
      by_cases hc : sjfLess m a
      · rw [popMin_cons_less hm hc] at h
        injection h with h1
        injection h1 with h2 h3
        subst h2
        intro q hq
        rcases List.mem_cons.mp hq with rfl | hq'
        · exact sjfLess_asymm hc
        · exact ih hm q hq'
      · rw [popMin_cons_notless hm hc] at h
        injection h with h1
        injection h1 with h2 h3
        subst h2
        intro q hq
        rcases List.mem_cons.mp hq with rfl | hq'
        · exact sjfLess_irrefl q
        · exact sjfLess_neg_trans hc (ih hm q hq')

theorem sjf_split_perm (t : Int) (ps : List Process) :
    (sjfArrivals t ps ++ sjfRemaining t ps).Perm ps :=
  List.filter_append_perm _ ps

theorem mem_sjfArrivals {t : Int} {ps : List Process} {x : Process}
    (hx : x ∈ sjfArrivals t ps) : x ∈ ps ∧ x.ArrivalTime ≤ t := by
  unfold sjfArrivals at hx
  have h := List.mem_filter.mp hx
  refine ⟨h.1, ?_⟩
  have hcond := h.2
  unfold sjfReadyCond at hcond
  simp only [Bool.and_eq_true, decide_eq_true_eq] at hcond
  exact hcond.1

theorem sjfReady_subset_ps {ps : List Process} {st : SJFState}
    (hinv : SJFInv ps st) {x : Process} (hx : x ∈ sjfReady st) : x ∈ ps := by
  refine hinv.perm.mem_iff.mp ?_
  rcases List.mem_append.mp hx with hx' | hx'
  · exact List.mem_append.mpr (Or.inl (List.mem_append.mpr (Or.inr hx')))
  · exact List.mem_append.mpr (Or.inr (mem_sjfArrivals hx').1)

theorem sjfReady_arrived {ps : List Process} {st : SJFState}
    (hinv : SJFInv ps st) {x : Process} (hx : x ∈ sjfReady st) :
    x.ArrivalTime ≤ st.currentTime := by
  rcases List.mem_append.mp hx with hx' | hx'
  · exact hinv.heapArrived x hx'
  · exact (mem_sjfArrivals hx').2

theorem SJFstep_none {st : SJFState} (hm : popMin (sjfReady st) = none) :
    SJFstep st = { st with
      heap := sjfReady st
      procs := sjfRemaining st.currentTime st.procs
      currentTime := st.currentTime + 1 } := by
  unfold SJFstep
  rw [hm]

theorem SJFstep_some {st : SJFState} {p : Process} {rest : List Process}
    (hm : popMin (sjfReady st) = some (p, rest)) :
    SJFstep st =
      { heap := rest
        procs := sjfRemaining st.currentTime st.procs
        served := st.served ++ [p]
        currentTime := st.currentTime + p.BurstDuration
        totalWait := st.totalWait + ((st.currentTime - p.ArrivalTime : Int) : ℚ)
        totalTurnaround := st.totalTurnaround
          + ((st.currentTime + p.BurstDuration - p.ArrivalTime : Int) : ℚ)
        schedule := st.schedule ++ [⟨p.ProcessID, p.Priority,
          p.BurstDuration + (st.currentTime - p.ArrivalTime), p.ArrivalTime,
          st.currentTime - p.ArrivalTime,
          st.currentTime + p.BurstDuration - p.ArrivalTime,
          st.currentTime + p.BurstDuration⟩]
        gantt := st.gantt ++ [⟨p.ProcessID, st.currentTime,
          st.currentTime + p.BurstDuration⟩] } := by
  unfold SJFstep
  rw [hm]

theorem SJFInv_init (ps : List Process) : SJFInv ps (SJFinit ps) := by
  constructor
  · simp [SJFinit]
  · simp [SJFinit]

theorem sjf_perm_helper {ps : List Process} {st : SJFState} (hinv : SJFInv ps st) :
    ((st.served ++ sjfReady st) ++ sjfRemaining st.currentTime st.procs).Perm ps := by
  unfold sjfReady
  rw [← List.append_assoc st.served st.heap, List.append_assoc (st.served ++ st.heap)]
  exact (List.Perm.append_left _ (sjf_split_perm _ _)).trans hinv.perm

theorem SJFInv_step {ps : List Process} {st : SJFState}
    (hv : validProcs ps) (hinv : SJFInv ps st) : SJFInv ps (SJFstep st) := by
  cases hm : popMin (sjfReady st) with
  | none =>
    rw [SJFstep_none hm]
    constructor
    · exact sjf_perm_helper hinv
    · intro x hx
      show x.ArrivalTime ≤ st.currentTime + 1
      have := sjfReady_arrived hinv hx
      omega
  | some x =>
    obtain ⟨p, rest⟩ := x
    have hpr := popMin_perm hm
    have hp_ready : p ∈ sjfReady st := hpr.mem_iff.mpr (List.mem_cons_self p rest)
    have hp_ps : p ∈ ps := sjfReady_subset_ps hinv hp_ready
    have hburst : 0 < p.BurstDuration := (hv p hp_ps).2
    rw [SJFstep_some hm]
    constructor
    · show (((st.served ++ [p]) ++ rest) ++ sjfRemaining st.currentTime st.procs).Perm ps
      have e : (st.served ++ [p]) ++ rest = st.served ++ (p :: rest) := by
        rw [List.append_assoc]
        rfl
      rw [e]
      exact (List.Perm.append_right _
        (List.Perm.append_left st.served hpr.symm)).trans (sjf_perm_helper hinv)
    · intro x hx
      show x.ArrivalTime ≤ st.currentTime + p.BurstDuration
      have hx_ready : x ∈ sjfReady st := hpr.mem_iff.mpr (List.mem_cons_of_mem p hx)
      have := sjfReady_arrived hinv hx_ready
      omega

theorem SJFrun_done {n : ℕ} {st : SJFState} (h : SJFdone st = true) : SJFrun n st = st := by
  cases n with
  | zero => rfl
  | succ n => simp [SJFrun, h]

theorem SJFInv_run {ps : List Process} (hv : validProcs ps) :
    ∀ (n : ℕ) (st : SJFState), SJFInv ps st → SJFInv ps (SJFrun n st) := by
  intro n
  induction n with
  | zero => exact fun st h => h
  | succ n ih =>
    intro st h
    unfold SJFrun
    split
    · exact h
    · exact ih (SJFstep st) (SJFInv_step hv h)

theorem SJFstep_served_prefix (st : SJFState) :
    ∃ l, (SJFstep st).served = st.served ++ l := by
  cases hm : popMin (sjfReady st) with
  | none =>
    rw [SJFstep_none hm]
    exact ⟨[], by simp⟩
  | some x =>
    obtain ⟨p, rest⟩ := x
    rw [SJFstep_some hm]
    exact ⟨[p], rfl⟩

theorem SJFrun_served_prefix :
    ∀ (n : ℕ) (st : SJFState), ∃ l, (SJFrun n st).served = st.served ++ l := by
  intro n
  induction n with
  | zero => exact fun st => ⟨[], by simp [SJFrun]⟩
  | succ n ih =>
    intro st
    unfold SJFrun
    split
    · exact ⟨[], by simp⟩
    · obtain ⟨l1, h1⟩ := ih (SJFstep st)
      obtain ⟨l0, h0⟩ := SJFstep_served_prefix st
      exact ⟨l0 ++ l1, by rw [h1, h0, List.append_assoc]⟩

theorem SJFrun_succ (n : ℕ) (st : SJFState) :
    SJFrun (n + 1) st = if SJFdone st then st else SJFrun n (SJFstep st) := rfl

theorem sjf_ready_not_served {ps : List Process} {st : SJFState}
    (hnd : ps.Nodup) (hinv : SJFInv ps st)
    {x : Process} (hx : x ∈ sjfReady st) (hs : x ∈ st.served) : False := by
  have hnodup := hinv.perm.symm.nodup hnd
  rw [List.nodup_append] at hnodup
  obtain ⟨hnd_sh, _, hdisj⟩ := hnodup
  rw [List.nodup_append] at hnd_sh
  obtain ⟨_, _, hdisj_sh⟩ := hnd_sh
  rcases List.mem_append.mp hx with hh | ha
  · exact hdisj_sh hs hh
  · exact hdisj (List.mem_append.mpr (Or.inl hs)) (mem_sjfArrivals ha).1

/-- At a decision point, the heap contains exactly the arrived and not yet
serviced processes (as a multiset). -/
theorem sjfReady_char {ps : List Process} {st : SJFState}
    (hv : validProcs ps) (hnd : ps.Nodup) (hinv : SJFInv ps st) :
    (sjfReady st).Perm (sjfReadySet ps st) := by
  have hperm := hinv.perm.filter
    (fun x => decide (x.ArrivalTime ≤ st.currentTime) && !(decide (x ∈ st.served)))
  rw [List.filter_append, List.filter_append] at hperm
  have hnodup := hinv.perm.symm.nodup hnd
  rw [List.nodup_append] at hnodup
  obtain ⟨hnd_sh, hnd_procs, hdisj⟩ := hnodup
  rw [List.nodup_append] at hnd_sh
  obtain ⟨hnd_s, hnd_h, hdisj_sh⟩ := hnd_sh
  have h1 : st.served.filter
      (fun x => decide (x.ArrivalTime ≤ st.currentTime) && !(decide (x ∈ st.served))) = [] := by
    rw [List.filter_eq_nil]
    intro a ha
    simp [ha]
  have h2 : st.heap.filter
      (fun x => decide (x.ArrivalTime ≤ st.currentTime) && !(decide (x ∈ st.served))) = st.heap := by
    rw [List.filter_eq_self]
    intro a ha
    have harr := hinv.heapArrived a ha
    have hns : a ∉ st.served := fun hs => hdisj_sh hs ha
    simp [harr, hns]
  have h3 : st.procs.filter
      (fun x => decide (x.ArrivalTime ≤ st.currentTime) && !(decide (x ∈ st.served)))
      = sjfArrivals st.currentTime st.procs := by
    unfold sjfArrivals
    refine List.filter_congr ?_
    intro a ha
    have hns : a ∉ st.served := fun hs => hdisj (List.mem_append.mpr (Or.inl hs)) ha
    have haps : a ∈ ps := hinv.perm.mem_iff.mp
      (List.mem_append.mpr (Or.inr ha))
    have hb := (hv a haps).2
    simp [sjfReadyCond, hns, hb]
  rw [h1, h2, h3] at hperm
  simpa [sjfReady, sjfReadySet] using hperm

theorem sjf_done_ready_nil {st : SJFState} (h : SJFdone st = true) : sjfReady st = [] := by
  unfold SJFdone at h
  simp only [Bool.and_eq_true, List.isEmpty_iff] at h
  obtain ⟨h1, h2⟩ := h
  unfold sjfReady sjfArrivals
  rw [h1, h2]
  rfl

theorem mem_rest_of_popMin {l rest : List Process} {p x : Process}
    (hm : popMin l = some (p, rest)) (hx : x ∈ l) (hne : x ≠ p) : x ∈ rest := by
  have hmem := (popMin_perm hm).mem_iff.mp hx
  rcases List.mem_cons.mp hmem with h | h
  · exact absurd h hne
  · exact h

/-- Once both `p` and `q` are at a decision point with `p` strictly preferred
by the heap order, `p` is serviced strictly before `q` in any continuation of
the run. -/
theorem sjf_order_aux {ps : List Process} (hv : validProcs ps) (hnd : ps.Nodup) :
    ∀ (n : ℕ) (st : SJFState), SJFInv ps st →
      ∀ p q : Process, p ∈ sjfReady st → q ∈ sjfReady st → sjfLess p q →
        ∀ i j, (SJFrun n st).served.get? i = some p →
          (SJFrun n st).served.get? j = some q → i < j := by
  intro n
  induction n with
  | zero =>
    intro st hinv p q hp hq hpq i j hi hj
    exact absurd (List.get?_mem hj) (fun hs => sjf_ready_not_served hnd hinv hq hs)
  | succ n ih =>
    intro st hinv p q hp hq hpq i j hi hj
    by_cases hdone : SJFdone st = true
    · rw [sjf_done_ready_nil hdone] at hp
      exact absurd hp (List.not_mem_nil p)
    · rw [SJFrun_succ, if_neg hdone] at hi hj
      have hne : sjfReady st ≠ [] := fun h => by
        rw [h] at hp
        exact List.not_mem_nil p hp
      obtain ⟨m, rest, hm⟩ := popMin_of_ne_nil hne
      have hinv' : SJFInv ps (SJFstep st) := SJFInv_step hv hinv
      by_cases hmq : m = q
      · subst hmq
        exact absurd hpq (popMin_min hm p hp)
      · by_cases hmp : m = p
        · subst hmp
          have hqp : q ≠ m := fun h => hmq h.symm
          have hq_rest : q ∈ rest := mem_rest_of_popMin hm hq hqp
          obtain ⟨tail, htail⟩ := SJFrun_served_prefix n (SJFstep st)
          have hserved' : (SJFstep st).served = st.served ++ [m] := by
            rw [SJFstep_some hm]
          rw [htail, hserved'] at hi hj
          have hp_not : m ∉ st.served := fun hs => sjf_ready_not_served hnd hinv hp hs
          have hq_not : q ∉ st.served := fun hs => sjf_ready_not_served hnd hinv hq hs
          have hinvF : SJFInv ps (SJFrun n (SJFstep st)) := SJFInv_run hv n _ hinv'
          have hndAll := hinvF.perm.symm.nodup hnd
          rw [List.nodup_append] at hndAll
          have hndSH := hndAll.1
          rw [List.nodup_append] at hndSH
          have hndS : (SJFrun n (SJFstep st)).served.Nodup := hndSH.1
          rw [htail, hserved'] at hndS
          rw [List.nodup_append] at hndS
          have hm_tail : m ∉ tail := fun ht =>
            hndS.2.2 (List.mem_append.mpr (Or.inr (List.mem_singleton.mpr rfl))) ht
          have hlen1 : (st.served ++ [m]).length = st.served.length + 1 := by simp
          have hi_eq : i = st.served.length := by
            rcases Nat.lt_or_ge i (st.served.length + 1) with hlt | hge
            · rcases Nat.lt_or_ge i st.served.length with hlt2 | hge2
              · exfalso
                rw [List.get?_append (by omega : i < (st.served ++ [m]).length),
                  List.get?_append hlt2] at hi
                exact hp_not (List.get?_mem hi)
              · omega
            · exfalso
              rw [List.get?_append_right (by omega : (st.served ++ [m]).length ≤ i)] at hi
              exact hm_tail (List.get?_mem hi)
          have hj_ge : st.served.length + 1 ≤ j := by
            by_contra hcon
            push_neg at hcon
            rw [List.get?_append (by omega : j < (st.served ++ [m]).length)] at hj
            have hqmem := List.get?_mem hj
            rcases List.mem_append.mp hqmem with hs | hs
            · exact hq_not hs
            · exact hqp (List.mem_singleton.mp hs)
          omega
        · have hp_ne : p ≠ m := fun h => hmp h.symm
          have hq_ne : q ≠ m := fun h => hmq h.symm
          have hp_rest : p ∈ rest := mem_rest_of_popMin hm hp hp_ne
          have hq_rest : q ∈ rest := mem_rest_of_popMin hm hq hq_ne
          have hheap : (SJFstep st).heap = rest := by
            rw [SJFstep_some hm]
          have hp' : p ∈ sjfReady (SJFstep st) := by
            unfold sjfReady
            rw [hheap]
            exact List.mem_append_left _ hp_rest
          have hq' : q ∈ sjfReady (SJFstep st) := by
            unfold sjfReady
            rw [hheap]
            exact List.mem_append_left _ hq_rest
          exact ih (SJFstep st) hinv' p q hp' hq' hpq i j hi hj

/-- Claim C2: for every valid process set (spec-modelled heap order, see
`sjfLess`), `SJFSchedule` is non-preemptive shortest-original-burst-first: at
each decision point it selects, among the processes that have arrived and not
yet run, one with the smallest original burst (ties by earliest arrival, then
lowest processID) and runs it to completion without interruption; and for any
two processes both ready at a decision point, the one with strictly smaller
original burst is never serviced after the other. -/
theorem C2_sjf_shortest_first (ps : List Process) (hv : validProcs ps)
    (hnd : ps.Nodup) (k n : ℕ) : SJFSelectionProp ps k n := by
  have hinv : SJFInv ps (SJFrun k (SJFinit ps)) :=
    SJFInv_run hv k _ (SJFInv_init ps)
  unfold SJFSelectionProp
  refine ⟨?_, sjfReady_char hv hnd hinv, ?_⟩
  · intro p rest hm
    refine ⟨(popMin_perm hm).mem_iff.mpr (List.mem_cons_self _ _),
      popMin_min hm, ?_, ?_⟩
    · rw [SJFstep_some hm]
    · rw [SJFstep_some hm]
  · intro p q hp hq hpq
    exact sjf_order_aux hv hnd n _ hinv p q hp hq (Or.inl hpq)

/-- Witness for `C2_sjf_shortest_first` at the spec §8 example input, after
one loop iteration (the decision point at time 5, where processes 2 and 3 are
both ready) with five further iterations. -/
theorem C2_sjf_shortest_first_witness :
    validProcs [⟨1, 0, 5, 0⟩, ⟨2, 1, 3, 0⟩, ⟨3, 2, 1, 0⟩] ∧
    ([⟨1, 0, 5, 0⟩, ⟨2, 1, 3, 0⟩, ⟨3, 2, 1, 0⟩] : List Process).Nodup ∧
    SJFSelectionProp [⟨1, 0, 5, 0⟩, ⟨2, 1, 3, 0⟩, ⟨3, 2, 1, 0⟩] 1 5 :=
  ⟨by decide, by decide,
    C2_sjf_shortest_first _ (by decide) (by decide) 1 5⟩

/-! ### The Round-Robin loop empties the processes slice -/

theorem RRrun_succ (tq : Int) (n : ℕ) (st : RRState) :
    RRrun tq (n + 1) st = if RRdone st then st else RRrun tq n (RRstep tq st) := rfl

theorem RRPosInv_step (tq : Int) {st : RRState} (h : RRPosInv st) :
    RRPosInv (RRstep tq st) := by
  obtain ⟨hq, hp⟩ := h
  have hq2 : ∀ x ∈ st.queue ++ st.procs.filter (rrArrivedCond st.currentTime),
      0 < x.BurstDuration := by
    intro x hx
    rcases List.mem_append.mp hx with h | h
    · exact hq x h
    · exact hp x (List.mem_filter.mp h).1
  have hp2 : ∀ x ∈ st.procs.filter (fun p => !rrArrivedCond st.currentTime p),
      0 < x.BurstDuration :=
    fun x hx => hp x (List.mem_filter.mp hx).1
  unfold RRstep
  split
  · exact ⟨by simp, hp2⟩
  · next p rest heq =>
    split
    · next hpb =>
      constructor
      · intro x hx
        rcases List.mem_append.mp hx with h | h
        · exact hq2 x (by rw [heq]; exact List.mem_cons_of_mem p h)
        · have hx' := List.mem_singleton.mp h
          subst hx'
          simp only
          omega
      · exact hp2
    · constructor
      · intro x hx
        exact hq2 x (by rw [heq]; exact List.mem_cons_of_mem p hx)
      · exact hp2

theorem RRstep_time_lt {tq : Int} (htq : 0 < tq) {st : RRState} (h : RRPosInv st) :
    st.currentTime < (RRstep tq st).currentTime := by
  obtain ⟨hq, hp⟩ := h
  have hq2 : ∀ x ∈ st.queue ++ st.procs.filter (rrArrivedCond st.currentTime),
      0 < x.BurstDuration := by
    intro x hx
    rcases List.mem_append.mp hx with h | h
    · exact hq x h
    · exact hp x (List.mem_filter.mp h).1
  unfold RRstep
  split
  · show st.currentTime < st.currentTime + 1
    omega
  · next p rest heq =>
    have hpb : 0 < p.BurstDuration := hq2 p (by rw [heq]; exact List.mem_cons_self _ _)
    split
    · show st.currentTime < st.currentTime + tq
      omega
    · show st.currentTime < st.currentTime + p.BurstDuration
      omega

theorem RRrun_time_le (tq : Int) (htq : 0 < tq) :
    ∀ (n : ℕ) (st : RRState), RRPosInv st →
      st.currentTime ≤ (RRrun tq n st).currentTime := by
  intro n
  induction n with
  | zero => exact fun st _ => le_refl _
  | succ n ih =>
    intro st h
    rw [RRrun_succ]
    split
    · exact le_refl _
    · exact le_trans (le_of_lt (RRstep_time_lt htq h)) (ih _ (RRPosInv_step tq h))

theorem RRrun_time_pos {tq : Int} (htq : 0 < tq) {ps : List Process} (hne : ps ≠ [])
    (hv : validProcs ps) (n : ℕ) :
    1 ≤ (RRrun tq (n + 1) (RRinit ps)).currentTime := by
  have hinv : RRPosInv (RRinit ps) :=
    ⟨by simp [RRinit], fun x hx => (hv x hx).2⟩
  have hnotdone : ¬ RRdone (RRinit ps) = true := by
    unfold RRdone RRinit
    simp only [List.isEmpty_nil, Bool.true_and, List.isEmpty_iff]
    exact hne
  rw [RRrun_succ, if_neg hnotdone]
  have h1 := RRstep_time_lt htq hinv
  have h2 := RRrun_time_le tq htq n _ (RRPosInv_step tq hinv)
  have h0 : (RRinit ps).currentTime = 0 := rfl
  omega

/-! ## The claims -/

/-- Claim C1, evaluated at a failing input (code bug).  For the single valid
process (id 1, arrival 0, burst 1), `FCFSSchedule` emits the row with
turnaround 2 and completion 1: `turnaroundTime = completionTime − arrivalTime`
fails (2 ≠ 1 − 0) because src/main.go:97 adds the row's turnaround to itself
(that line is not even well-typed Go).  For the single process (id 1, arrival
5, burst 1) the waiting time is −5 < 0: `waitingTime ≥ 0` fails as well,
because FCFS never advances the clock to a late arrival. -/
theorem C1_row_invariant_code_eval :
    (FCFSSchedule [⟨1, 0, 1, 0⟩]).rows = [⟨1, 0, 1, 0, 0, 2, 1⟩] ∧
    (∃ r ∈ (FCFSSchedule [⟨1, 0, 1, 0⟩]).rows, r.turnaround ≠ r.completion - r.arrival) ∧
    (∃ r ∈ (FCFSSchedule [⟨1, 5, 1, 0⟩]).rows, r.wait < 0) := by
  decide

/-- Claim C3, counterexample.  On input [(1, burst 2, arrival 0),
(2, burst 3, arrival 0)] the clock `serviceTime` is 2 when process 2 is
scheduled, past its arrival 0, so the claimed algorithm gives
`waitingTime = 2 − 0 = 2` and `completionTime` = the advanced clock 5; the
code leaves process 2's waiting time at the carried-over 0 (the
`ArrivalTime > 0` test fails) and stores completion 3. -/
theorem C3_fcfs_waiting_counterexample :
    (FCFSSchedule [⟨1, 0, 2, 0⟩, ⟨2, 0, 3, 0⟩]).rows =
      [⟨1, 0, 2, 0, 0, 4, 2⟩, ⟨2, 0, 3, 0, 0, 6, 3⟩] ∧
    burstPrefix [⟨1, 0, 2, 0⟩, ⟨2, 0, 3, 0⟩] 1 = 2 ∧
    ((FCFSSchedule [⟨1, 0, 2, 0⟩, ⟨2, 0, 3, 0⟩]).rows.getD 1 ⟨0, 0, 0, 0, 0, 0, 0⟩).wait ≠
      burstPrefix [⟨1, 0, 2, 0⟩, ⟨2, 0, 3, 0⟩] 1 - 0 ∧
    ((FCFSSchedule [⟨1, 0, 2, 0⟩, ⟨2, 0, 3, 0⟩]).rows.getD 1 ⟨0, 0, 0, 0, 0, 0, 0⟩).completion ≠
      burstPrefix [⟨1, 0, 2, 0⟩, ⟨2, 0, 3, 0⟩] 2 := by
  decide

/-- Claim C3 as amended: `FCFSSchedule` processes the slice in input order
with a clock `serviceTime` (the prefix sums of the bursts) starting at 0 and,
for each process, sets `waitingTime = serviceTime − arrivalTime` when
`arrivalTime > 0` and leaves `waitingTime` at its previous value (initially
0) otherwise; the clock is never advanced to a late arrival; the slice starts
at `waitingTime + arrivalTime` and stops at the clock advanced by
`burstDuration`; `completionTime = burstDuration + arrivalTime + waitingTime`
(not the clock value); the row's turnaround column holds twice
`burstDuration + waitingTime`. -/
theorem C3_fcfs_algorithm_amended (ps : List Process) :
    (FCFSSchedule ps).rows = (List.range ps.length).map (fcfsRow ps) ∧
    (FCFSSchedule ps).gantt = (List.range ps.length).map (fcfsSlice ps) := by
  constructor
  · show (FCFSfold ps).schedule = _
    rw [FCFSfold_eq]
  · show (FCFSfold ps).gantt = _
    rw [FCFSfold_eq]

/-- Claim C4: on the spec §8 example input [(1,5,0),(2,3,1),(3,1,2)]
(id, burst, arrival), FCFS runs process 1 at [0,5) with wait 0, process 2 at
[5,8) with wait 4, process 3 at [8,9) with wait 6, and the average waiting
time is (0+4+6)/3 = 10/3, which `%.2f` prints as 3.33. -/
theorem C4_fcfs_spec_example :
    FCFSSchedule [⟨1, 0, 5, 0⟩, ⟨2, 1, 3, 0⟩, ⟨3, 2, 1, 0⟩] =
      { rows := [⟨1, 0, 5, 0, 0, 10, 5⟩, ⟨2, 0, 3, 1, 4, 14, 8⟩, ⟨3, 0, 1, 2, 6, 14, 9⟩]
        gantt := [⟨1, 0, 5⟩, ⟨2, 5, 8⟩, ⟨3, 8, 9⟩]
        aveWait := some (10/3)
        aveTurnaround := some 0
        throughput := some (1/3) } := by
  simp [FCFSSchedule, FCFSfold, FCFSstep, fdiv]
  norm_num

/-- Claim C5, evaluated at a failing input (code bug).  For the single
process (id 1, arrival 0, burst 1), `FCFSSchedule` reports average turnaround
0 — the `float64` accumulator of src/main.go:82 is shadowed by the loop-local
`turnaround` of line 96 and never written — while the arithmetic mean of the
row turnaround column is 2.  `RRSchedule` reports `NaN` (modelled `none`)
for both averages, dividing by the length of its by-then emptied slice. -/
theorem C5_metrics_code_eval :
    (FCFSSchedule [⟨1, 0, 1, 0⟩]).aveTurnaround = some 0 ∧
    fdiv ((((FCFSSchedule [⟨1, 0, 1, 0⟩]).rows.map ScheduleRow.turnaround).sum : Int) : ℚ)
      (((FCFSSchedule [⟨1, 0, 1, 0⟩]).rows.length : ℕ) : ℚ) = some 2 ∧
    (some (0 : ℚ) ≠ some (2 : ℚ)) ∧
    (RRSchedule [⟨1, 0, 1, 0⟩]).avgTurnaround = none ∧
    (RRSchedule [⟨1, 0, 1, 0⟩]).avgWait = none := by
  refine ⟨?_, ?_, by norm_num, ?_, ?_⟩
  · simp [FCFSSchedule, FCFSfold, FCFSstep, fdiv]
  · simp [FCFSSchedule, FCFSfold, FCFSstep, fdiv]
  · simp [RRSchedule, RRScheduleWith, RRtimeQuantum, RRfuel, RRrun, RRdone, RRstep,
      RRinit, rrArrivedCond, fdiv]
  · simp [RRSchedule, RRScheduleWith, RRtimeQuantum, RRfuel, RRrun, RRdone, RRstep,
      RRinit, rrArrivedCond, fdiv]

/-- Claim C6, evaluated at a failing input (code bug).  On input
[(1, burst 2, arrival 0), (2, burst 3, arrival 0)], once process 2 is fully
serviced its single FCFS time slice is [0,5): `start` reuses the stale
`waitingTime` (0) although the clock is 2, so the slice durations for
processID 2 sum to 5, not its burst 3.  (`RRSchedule` never emits a
TimeSlice at all, src/main.go:246-295.) -/
theorem C6_slice_sum_code_eval :
    (FCFSSchedule [⟨1, 0, 2, 0⟩, ⟨2, 0, 3, 0⟩]).gantt = [⟨1, 0, 2⟩, ⟨2, 0, 5⟩] ∧
    pidSliceSum (FCFSSchedule [⟨1, 0, 2, 0⟩, ⟨2, 0, 3, 0⟩]).gantt 2 = 5 ∧
    (pAt [⟨1, 0, 2, 0⟩, ⟨2, 0, 3, 0⟩] 1).BurstDuration = 3 ∧
    ((5 : Int) ≠ 3) := by
  decide

/-- Claim C7, evaluated (code bug).  The time quantum is the hardcoded
constant 2 of src/main.go:247, not a parameter of `RRSchedule`, and no
validation exists: with a non-positive quantum (0) and the process
(id 1, arrival 0, burst 1), the loop body executes — the state after one
iteration has the process dequeued and re-queued with the clock unchanged, a
fixpoint — so the run begins and spins forever instead of being rejected. -/
theorem C7_quantum_code_eval :
    RRtimeQuantum = 2 ∧
    (∀ ps : List Process, RRSchedule ps = RRScheduleWith 2 ps) ∧
    RRstep 0 ⟨[⟨1, 0, 1, 0⟩], [], 0, 0, 0⟩ = ⟨[⟨1, 0, 1, 0⟩], [], 0, 0, 0⟩ ∧
    (RRrun 0 5 (RRinit [⟨1, 0, 1, 0⟩])).queue ≠ [] :=
  ⟨rfl, fun _ => rfl, by decide, by decide⟩

/-- Claim C8, evaluated at the failing input (code bug).  On the empty
process set every policy does return empty rows and an empty timeline, but
all three metrics are computed by an unguarded `float64` division with a
zero denominator, so each is `NaN` (modelled `none`), not a guarded zero or
"not applicable". -/
theorem C8_empty_input_code_eval :
    FCFSSchedule [] = ⟨[], [], none, none, none⟩ ∧
    SJFSchedule [] = ⟨[], [], none, none, none⟩ ∧
    RRSchedule [] = ⟨none, none, none⟩ := by
  refine ⟨?_, ?_, ?_⟩
  · simp [FCFSSchedule, FCFSfold, fdiv]
  · simp [SJFSchedule, SJFfuel, SJFrun, SJFdone, SJFinit, fdiv]
  · simp [RRSchedule, RRScheduleWith, RRtimeQuantum, RRfuel, RRrun, RRdone, RRstep,
      RRinit, rrArrivedCond, fdiv]

/-- Claim C9, evaluated at a failing input (code bug).  `SJFSchedule` removes
elements from its `processes` parameter with
`append(processes[:i], processes[i+1:]...)`, which shifts elements inside the
caller's backing array.  After `SJFSchedule` returns on the spec example
input, the caller's three records read [(3,1,2),(3,1,2),(3,1,2)] instead of
the original [(1,5,0),(2,3,1),(3,1,2)] — the caller's process records are
not unchanged.  (`RRSchedule` removes elements the same way,
src/main.go:262.) -/
theorem C9_caller_slice_mutated :
    SJFcallerView [⟨1, 0, 5, 0⟩, ⟨2, 1, 3, 0⟩, ⟨3, 2, 1, 0⟩]
      = [⟨3, 2, 1, 0⟩, ⟨3, 2, 1, 0⟩, ⟨3, 2, 1, 0⟩] ∧
    SJFcallerView [⟨1, 0, 5, 0⟩, ⟨2, 1, 3, 0⟩, ⟨3, 2, 1, 0⟩]
      ≠ [⟨1, 0, 5, 0⟩, ⟨2, 1, 3, 0⟩, ⟨3, 2, 1, 0⟩] := by
  decide

/-- Claim C10, counterexample to the throughput clause.  On the non-empty
input [(1, burst 1, arrival 0)] the run completes at clock 1, and the
throughput computation of src/main.go:289 divides by `currentTime` = 1 — not
by `len(processes)` = 0 — with `len(processes)` = 0 as its *numerator*: the
result is the finite value 0 (`some 0`), not a zero-denominator division
(which the float model reports as `none`). -/
theorem C10_throughput_counterexample :
    (RRSchedule [⟨1, 0, 1, 0⟩]).throughput = some 0 ∧
    (RRSchedule [⟨1, 0, 1, 0⟩]).throughput ≠ none ∧
    (RRrun RRtimeQuantum (RRfuel [⟨1, 0, 1, 0⟩]) (RRinit [⟨1, 0, 1, 0⟩])).currentTime = 1 := by
  refine ⟨?_, ?_, by decide⟩
  · simp [RRSchedule, RRScheduleWith, RRtimeQuantum, RRfuel, RRrun, RRdone, RRstep,
      RRinit, rrArrivedCond, fdiv]
  · simp [RRSchedule, RRScheduleWith, RRtimeQuantum, RRfuel, RRrun, RRdone, RRstep,
      RRinit, rrArrivedCond, fdiv]

theorem sumBurst_nil : sumBurst [] = 0 := rfl

theorem sumBurst_cons (p : Process) (l : List Process) :
    sumBurst (p :: l) = p.BurstDuration + sumBurst l := by
  simp [sumBurst]

theorem sumBurst_append (l₁ l₂ : List Process) :
    sumBurst (l₁ ++ l₂) = sumBurst l₁ + sumBurst l₂ := by
  simp [sumBurst]

theorem sumBurst_nonneg {l : List Process} (h : ∀ x ∈ l, 0 < x.BurstDuration) :
    0 ≤ sumBurst l := by
  induction l with
  | nil => simp [sumBurst]
  | cons a as ih =>
    rw [sumBurst_cons]
    have h1 := h a (List.mem_cons_self a as)
    have h2 := ih fun x hx => h x (List.mem_cons_of_mem a hx)
    omega

theorem sumBurst_pos {l : List Process} (h : ∀ x ∈ l, 0 < x.BurstDuration)
    (hne : l ≠ []) : 1 ≤ sumBurst l := by
  cases l with
  | nil => exact absurd rfl hne
  | cons a as =>
    rw [sumBurst_cons]
    have h1 := h a (List.mem_cons_self a as)
    have h2 := sumBurst_nonneg fun x hx => h x (List.mem_cons_of_mem a hx)
    omega

theorem sumBurst_filter_split (c : Process → Bool) (l : List Process) :
    sumBurst (l.filter c) + sumBurst (l.filter fun x => !c x) = sumBurst l := by
  have hp := (List.filter_append_perm c l).map Process.BurstDuration
  have := hp.sum_eq
  rw [List.map_append, List.sum_append] at this
  simpa [sumBurst] using this

theorem maxArrival_nonneg (l : List Process) : 0 ≤ maxArrival l := by
  induction l with
  | nil => simp [maxArrival]
  | cons a as ih =>
    have : maxArrival (a :: as) = max a.ArrivalTime (maxArrival as) := by
      simp [maxArrival]
    rw [this]
    exact le_trans ih (le_max_right _ _)

theorem le_maxArrival {l : List Process} {x : Process} (h : x ∈ l) :
    x.ArrivalTime ≤ maxArrival l := by
  induction l with
  | nil => exact absurd h (List.not_mem_nil x)
  | cons a as ih =>
    have hstep : maxArrival (a :: as) = max a.ArrivalTime (maxArrival as) := by
      simp [maxArrival]
    rw [hstep]
    rcases List.mem_cons.mp h with rfl | h'
    · exact le_max_left _ _
    · exact le_trans (ih h') (le_max_right _ _)

theorem maxArrival_le {l : List Process} {b : Int} (hb : 0 ≤ b)
    (h : ∀ x ∈ l, x.ArrivalTime ≤ b) : maxArrival l ≤ b := by
  induction l with
  | nil => simpa [maxArrival] using hb
  | cons a as ih =>
    have hstep : maxArrival (a :: as) = max a.ArrivalTime (maxArrival as) := by
      simp [maxArrival]
    rw [hstep]
    exact max_le (h a (List.mem_cons_self a as))
      (ih fun x hx => h x (List.mem_cons_of_mem a hx))

theorem maxArrival_filter_le (c : Process → Bool) (l : List Process) :
    maxArrival (l.filter c) ≤ maxArrival l :=
  maxArrival_le (maxArrival_nonneg l)
    (fun _ hx => le_maxArrival (List.mem_filter.mp hx).1)

/-- On a positive-burst state that does not satisfy the exit condition, one
Round-Robin iteration with a positive quantum strictly decreases the
measure. -/
theorem RRmeasure_step_lt {tq : Int} (htq : 0 < tq) {st : RRState}
    (hinv : RRPosInv st) (hnd : ¬ RRdone st = true) :
    RRmeasure (RRstep tq st) < RRmeasure st := by
  obtain ⟨hq, hp⟩ := hinv
  have hsplit := sumBurst_filter_split (rrArrivedCond st.currentTime) st.procs
  have harr_nonneg : 0 ≤ sumBurst (st.procs.filter (rrArrivedCond st.currentTime)) :=
    sumBurst_nonneg fun x hx => hp x (List.mem_filter.mp hx).1
  have hrem_nonneg :
      0 ≤ sumBurst (st.procs.filter fun x => !rrArrivedCond st.currentTime x) :=
    sumBurst_nonneg fun x hx => hp x (List.mem_filter.mp hx).1
  have hq_nonneg : 0 ≤ sumBurst st.queue := sumBurst_nonneg hq
  have hmax_rem : maxArrival (st.procs.filter fun x => !rrArrivedCond st.currentTime x)
      ≤ maxArrival st.procs := maxArrival_filter_le _ _
  have hmax_rem_nonneg :
      0 ≤ maxArrival (st.procs.filter fun x => !rrArrivedCond st.currentTime x) :=
    maxArrival_nonneg _
  unfold RRstep
  split
  · next heq =>
    obtain ⟨hq_nil, harr_nil⟩ := List.append_eq_nil.mp heq
    have hprocs_ne : st.procs ≠ [] := by
      intro h0
      apply hnd
      unfold RRdone
      rw [hq_nil, h0]
      rfl
    have hun : ∀ x ∈ st.procs, st.currentTime < x.ArrivalTime := by
      intro x hx
      have hcond := List.filter_eq_nil.mp harr_nil x hx
      unfold rrArrivedCond at hcond
      simp only [decide_eq_true_eq] at hcond
      omega
    have hrem_eq : (st.procs.filter fun x => !rrArrivedCond st.currentTime x) = st.procs := by
      rw [List.filter_eq_self]
      intro a ha
      unfold rrArrivedCond
      have := hun a ha
      simp
      omega
    obtain ⟨x, hx⟩ : ∃ x, x ∈ st.procs := List.exists_mem_of_ne_nil _ hprocs_ne
    have hgap : st.currentTime < maxArrival st.procs :=
      lt_of_lt_of_le (hun x hx) (le_maxArrival hx)
    unfold RRmeasure
    simp only [hrem_eq, hq_nil, sumBurst_nil]
    omega
  · next p rest heq =>
    have hpmem : p ∈ st.queue ++ st.procs.filter (rrArrivedCond st.currentTime) := by
      rw [heq]
      exact List.mem_cons_self p rest
    have hmem_pos : ∀ x ∈ st.queue ++ st.procs.filter (rrArrivedCond st.currentTime),
        0 < x.BurstDuration := by
      intro x hx
      rcases List.mem_append.mp hx with h | h
      · exact hq x h
      · exact hp x (List.mem_filter.mp h).1
    have hppos : 0 < p.BurstDuration := hmem_pos p hpmem
    have hrest_nonneg : 0 ≤ sumBurst rest :=
      sumBurst_nonneg fun x hx => hmem_pos x (by
        rw [heq]
        exact List.mem_cons_of_mem p hx)
    have hsum2 : sumBurst st.queue
        + sumBurst (st.procs.filter (rrArrivedCond st.currentTime))
        = p.BurstDuration + sumBurst rest := by
      have hcg := congrArg sumBurst heq
      rw [sumBurst_append, sumBurst_cons] at hcg
      exact hcg
    split
    · next hlt =>
      unfold RRmeasure
      simp only [sumBurst_append, sumBurst_cons, sumBurst_nil]
      omega
    · next hge =>
      unfold RRmeasure
      simp only [sumBurst_append, sumBurst_cons, sumBurst_nil]
      omega

/-- With a positive quantum, a positive-burst state whose measure is at most
`n` reaches the exit condition within `n + 1` iterations. -/
theorem RRrun_exits {tq : Int} (htq : 0 < tq) :
    ∀ (n : ℕ) (st : RRState), RRPosInv st → RRmeasure st ≤ n →
      RRdone (RRrun tq (n + 1) st) = true := by
  intro n
  induction n with
  | zero =>
    intro st hinv hm
    by_cases hdone : RRdone st = true
    · rw [RRrun_succ, if_pos hdone]
      exact hdone
    · exact absurd (RRmeasure_step_lt htq hinv hdone) (by omega)
  | succ n ih =>
    intro st hinv hm
    by_cases hdone : RRdone st = true
    · rw [RRrun_succ, if_pos hdone]
      exact hdone
    · rw [RRrun_succ, if_neg hdone]
      exact ih (RRstep tq st) (RRPosInv_step tq hinv)
        (by have := RRmeasure_step_lt htq hinv hdone; omega)

/-- For every valid process set, the Round-Robin loop exits within the
`RRfuel` iterations `RRSchedule` runs it for. -/
theorem RRfuel_sufficient (ps : List Process) (hv : validProcs ps) :
    RRdone (RRrun RRtimeQuantum (RRfuel ps) (RRinit ps)) = true := by
  have hinv : RRPosInv (RRinit ps) :=
    ⟨by simp [RRinit], fun x hx => (hv x hx).2⟩
  have hmeas : RRmeasure (RRinit ps)
      = (sumBurst ps).toNat + (maxArrival ps).toNat := by
    unfold RRmeasure RRinit
    simp only [sumBurst_nil]
    omega
  have hfuel : RRfuel ps
      = (maxArrival ps).toNat + (sumBurst ps).toNat + ps.length + 1 := rfl
  have hle : RRmeasure (RRinit ps) ≤ (maxArrival ps).toNat + (sumBurst ps).toNat + ps.length := by
    omega
  rw [hfuel]
  exact RRrun_exits (by norm_num [RRtimeQuantum]) _ _ hinv hle

/-- Claim C10 as amended: for every non-empty valid process set the
Round-Robin loop exits (within the `RRfuel` iterations `RRSchedule` runs it
for, by `RRfuel_sufficient`), having removed every element from the
`processes` slice — the exit condition requires it — so the
average-turnaround and average-waiting computations of src/main.go:287-288
divide by `len(processes)` = 0 unguarded and report a non-finite value
(`none`), never equal to any finite mean — in particular not to the true
means; the throughput computation of line 289 instead has the numerator
`len(processes)` = 0 over the positive final clock, reporting 0, never equal
to the true (positive) throughput. -/
theorem C10_rr_zero_denominator (ps : List Process) (hne : ps ≠ [])
    (hv : validProcs ps) :
    RRdone (RRrun RRtimeQuantum (RRfuel ps) (RRinit ps)) = true ∧
    (RRrun RRtimeQuantum (RRfuel ps) (RRinit ps)).procs = [] ∧
    (∀ w : ℚ, (RRSchedule ps).avgTurnaround ≠ some w) ∧
    (∀ w : ℚ, (RRSchedule ps).avgWait ≠ some w) ∧
    (RRSchedule ps).throughput = some 0 ∧
    (∀ w : ℚ, 0 < w → (RRSchedule ps).throughput ≠ some w) := by
  have hdone := RRfuel_sufficient ps hv
  have hprocs : (RRrun RRtimeQuantum (RRfuel ps) (RRinit ps)).procs = [] := by
    unfold RRdone at hdone
    simp only [Bool.and_eq_true, List.isEmpty_iff] at hdone
    exact hdone.2
  have htime : 1 ≤ (RRrun RRtimeQuantum (RRfuel ps) (RRinit ps)).currentTime := by
    obtain ⟨m, hm⟩ : ∃ m, RRfuel ps = m + 1 := ⟨_, rfl⟩
    rw [hm]
    exact RRrun_time_pos (by norm_num [RRtimeQuantum]) hne hv m
  have hcast : ((RRrun RRtimeQuantum (RRfuel ps) (RRinit ps)).currentTime : ℚ) ≠ 0 := by
    intro h0
    rw [Int.cast_eq_zero] at h0
    omega
  have hthr : (RRSchedule ps).throughput = some 0 := by
    unfold RRSchedule RRScheduleWith
    simp only [hprocs]
    simp [fdiv, hcast]
  refine ⟨hdone, hprocs, ?_, ?_, hthr, ?_⟩
  · intro w
    unfold RRSchedule RRScheduleWith
    simp only [hprocs]
    simp [fdiv]
  · intro w
    unfold RRSchedule RRScheduleWith
    simp only [hprocs]
    simp [fdiv]
  · intro w hw hcontra
    rw [hthr] at hcontra
    have h0w : (0 : ℚ) = w := Option.some.inj hcontra
    exact absurd h0w.symm (ne_of_gt hw)

/-- Witness for `C10_rr_zero_denominator` at the input [(1, burst 1,
arrival 0)]. -/
theorem C10_rr_zero_denominator_witness :
    ([⟨1, 0, 1, 0⟩] : List Process) ≠ [] ∧
    validProcs [⟨1, 0, 1, 0⟩] ∧
    (RRdone (RRrun RRtimeQuantum (RRfuel [⟨1, 0, 1, 0⟩]) (RRinit [⟨1, 0, 1, 0⟩])) = true ∧
      (RRrun RRtimeQuantum (RRfuel [⟨1, 0, 1, 0⟩]) (RRinit [⟨1, 0, 1, 0⟩])).procs = [] ∧
      (∀ w : ℚ, (RRSchedule [⟨1, 0, 1, 0⟩]).avgTurnaround ≠ some w) ∧
      (∀ w : ℚ, (RRSchedule [⟨1, 0, 1, 0⟩]).avgWait ≠ some w) ∧
      (RRSchedule [⟨1, 0, 1, 0⟩]).throughput = some 0 ∧
      (∀ w : ℚ, 0 < w → (RRSchedule [⟨1, 0, 1, 0⟩]).throughput ≠ some w)) :=
  ⟨by decide, by decide,
    C10_rr_zero_denominator _ (by decide) (by decide)⟩
